import Mathlib

/-!
Verification of the Embox DumbFS (DFS) driver, `src/fs/driver/dfs/dfs.c`.

Part 1 models the flash device and the buffered-rewrite engine
`dfs_write_buffered` at byte level, in the flash-scratch configuration
(`USE_RAM_AS_CACHE` off), where `CACHE_OFFSET = buff_bk * NAND_BLOCK_SIZE`
and the staging primitives are the flash facade calls themselves.
The flash facade (`flash_erase`, `flash_write_aligned`, `flash_copy_aligned`,
`flash_copy_block`) is external to the repository; its semantics follow the
spec: erase sets a block to 0xFF, copy_block erases the target and copies the
source block onto it.

Part 2 models the metadata layer (superblock, dirent table) and the
operations `dfs_format`, `dfs_icreate`, `dfs_itruncate`, `ino_from_path`,
`dfs_ilookup`, `dfs_iterate`, `dfs_read`, `dfs_write` structurally, with the
on-flash dirent table as a list of entries (erased slots read back as 0xFF
bytes, so `name[0]` is 0xFF, not NUL).
-/

namespace DFS

/-- Flash contents: the byte stored at each absolute byte offset. -/
abbrev Flash := Nat → Nat

/-- Operations issued against the flash facade by the DFS driver.
`B` (the erase-block size, `NAND_BLOCK_SIZE`) is a parameter of the
semantics, not of the ops. -/
inductive FlashOp where
  | erase (bk : Nat)
  | writeAligned (off : Nat) (data : List Nat)
  | copyAligned (dst src len : Nat)
  | copyBlock (dst src : Nat)
deriving DecidableEq, Repr

/-- Semantics of one flash-facade call, from the spec of the facade:
erase fills the block with 0xFF; write overwrites bytes; copy_aligned
copies a byte range; copy_block erases the destination block and copies
the source block onto it. -/
def applyOp (B : Nat) (f : Flash) : FlashOp → Flash
  | .erase bk => fun a => if bk * B ≤ a ∧ a < (bk + 1) * B then 255 else f a
  | .writeAligned off data =>
      fun a => if off ≤ a ∧ a < off + data.length then data.getD (a - off) 255 else f a
  | .copyAligned dst src len =>
      fun a => if dst ≤ a ∧ a < dst + len then f (src + (a - dst)) else f a
  | .copyBlock dst src =>
      fun a => if dst * B ≤ a ∧ a < (dst + 1) * B then f (src * B + (a - dst * B)) else f a

/-- Applying a sequence of flash operations in order. -/
def applyOps (B : Nat) (f : Flash) (ops : List FlashOp) : Flash :=
  ops.foldl (applyOp B) f

/-- Flash operations issued by the intermediate-block loop of
`dfs_write_buffered` (`for (bk = start_bk + 1; bk < last_bk; bk++)`):
each of the `m` fully covered blocks starting at `bk` is erased and then
written with the next `NAND_BLOCK_SIZE` bytes of `buff`. -/
def dfs_mid_ops (B : Nat) : Nat → List Nat → Nat → List FlashOp
  | _, _, 0 => []
  | bk, buff, m + 1 =>
      .erase bk :: .writeAligned (bk * B) (buff.take B) ::
        dfs_mid_ops B (bk + 1) (buff.drop B) m

/-- Trace of flash operations issued by `dfs_write_buffered(pos, buff, size,
buff_bk)` (dfs.c:110-152), flash-scratch mode, transcribed line by line:
`start_bk = pos / B`, `last_bk = (pos + size) / B`, `pos %= B`; erase the
scratch block and stage the block head `[start_bk*B, start_bk*B+pos)`;
in the single-block case write `buff` into the scratch at `pos`; otherwise
fill the rest of the scratch from `buff`, publish to `start_bk`, erase and
write each intermediate block directly, then erase the scratch again and
write the remaining `(pos+size) % B` bytes at its base; finally stage the
tail of `last_bk` and publish the scratch to `last_bk`. -/
def dfs_write_buffered_ops (B : Nat) (pos : Nat) (buff : List Nat) (size : Nat)
    (buff_bk : Nat) : List FlashOp :=
  let start_bk := pos / B
  let last_bk := (pos + size) / B
  let cache := buff_bk * B
  let p := pos % B
  if start_bk = last_bk then
    [.erase buff_bk, .copyAligned cache (start_bk * B) p,
     .writeAligned (cache + p) (buff.take size),
     .copyAligned (cache + (p + size)) (last_bk * B + (p + size)) (B - (p + size)),
     .copyBlock last_bk buff_bk]
  else
    [.erase buff_bk, .copyAligned cache (start_bk * B) p,
     .writeAligned (cache + p) (buff.take (B - p)),
     .copyBlock start_bk buff_bk]
    ++ dfs_mid_ops B (start_bk + 1) (buff.drop (B - p)) (last_bk - (start_bk + 1))
    ++ (let tail := (p + size) % B
        let buff2 := (buff.drop (B - p)).drop ((last_bk - (start_bk + 1)) * B)
        [.erase buff_bk, .writeAligned cache (buff2.take tail),
         .copyAligned (cache + tail) (last_bk * B + tail) (B - tail),
         .copyBlock last_bk buff_bk])

/-- Resulting flash state of a `dfs_write_buffered` call. -/
def dfs_write_buffered (B : Nat) (f : Flash) (pos : Nat) (buff : List Nat)
    (size : Nat) (buff_bk : Nat) : Flash :=
  applyOps B f (dfs_write_buffered_ops B pos buff size buff_bk)

/-- Number of erase cycles an operation inflicts on persistent (non-scratch)
blocks: an `erase` of a block other than `scratch` counts one, and a
`copy_block` whose destination is not `scratch` counts one (the facade
erases the destination before copying). -/
def opPersistentErases (scratch : Nat) : FlashOp → Nat
  | .erase bk => if bk = scratch then 0 else 1
  | .copyBlock dst _ => if dst = scratch then 0 else 1
  | _ => 0

/-- Total erases of persistent blocks in a trace. -/
def persistentErases (scratch : Nat) (ops : List FlashOp) : Nat :=
  (ops.map (opPersistentErases scratch)).sum

/-- Number of erase cycles one operation inflicts on block `bk`. -/
def opEraseCount (bk : Nat) : FlashOp → Nat
  | .erase b => if b = bk then 1 else 0
  | .copyBlock d _ => if d = bk then 1 else 0
  | _ => 0

/-- Number of erase cycles a trace inflicts on one particular block. -/
def erasesOfBlock (bk : Nat) (ops : List FlashOp) : Nat :=
  (ops.map (opEraseCount bk)).sum

/-- Number of erase blocks the byte range `[pos, pos + size)` intersects,
for `size > 0`: blocks `pos / B` through `(pos + size - 1) / B`. -/
def touchedBlocks (B : Nat) (pos size : Nat) : Nat :=
  (pos + size - 1) / B - pos / B + 1

/-!
Part 2: the metadata layer. The struct layouts (`struct dfs_sb_info`,
`struct dfs_dir_entry`) live in `fs/dfs.h`, outside the repository slice;
their field lists and the fact that `name` is the leading field of a dirent
are taken from the spec (data-model tables and invariant I4). Build-time
constants (`DFS_INODES_MAX`, `MIN_FILE_SZ`, struct sizes) are parameters. -/

/-- Build-time configuration: `DFS_INODES_MAX`, `MIN_FILE_SZ`
(`minimum_file_size`), and the two struct sizes entering
`DFS_DENTRY_OFFSET(N) = sizeof(struct dfs_sb_info) + N * sizeof(struct
dfs_dir_entry)`. -/
structure Config where
  inodesMax : Nat
  minFileSz : Nat
  szSb : Nat
  szDe : Nat
deriving DecidableEq, Repr

/-- On-flash directory entry (`struct dfs_dir_entry`). `name` holds the
byte values of the name field read back as a C string (the bytes `strcmp`
compares, without the terminating NUL). -/
structure DirEntry where
  name : List Nat
  pos_start : Nat
  len : Nat
  flags : Nat
deriving DecidableEq, Repr

/-- S_IFDIR file-type bits. -/
def S_IFDIR : Nat := 0x4000

/-- S_IFREG file-type bits. -/
def S_IFREG : Nat := 0x8000

/-- Value a dirent slot reads back as after a block erase: every byte 0xFF,
so the name bytes are 0xFF and the numeric fields are 0xFFFFFFFF. -/
def erasedDirent : DirEntry :=
  { name := List.replicate 4 255, pos_start := 0xFFFFFFFF,
    len := 0xFFFFFFFF, flags := 0xFFFFFFFF }

/-- On-flash superblock (`struct dfs_sb_info`). -/
structure SbInfo where
  magic : List Nat
  inode_count : Nat
  max_inode_count : Nat
  max_len : Nat
  buff_bk : Nat
  free_space : Nat
deriving DecidableEq, Repr

/-- Metadata-level state of the mounted device: the superblock at offset 0
and the dirent table; slots beyond the list read back erased. -/
structure DfsState where
  sbi : SbInfo
  dirents : List DirEntry
deriving DecidableEq, Repr

/-- Raw flash read of dirent slot `n` (`DFS_DENTRY_OFFSET(n)`). -/
def readSlot (s : DfsState) (n : Nat) : DirEntry :=
  s.dirents.getD n erasedDirent

/-- Overwriting dirent slot `n`, extending the table with erased slots as
needed; models `dfs_write_dirent` going through the buffered-write engine. -/
def tableSet : List DirEntry → Nat → DirEntry → List DirEntry
  | [], 0, d => [d]
  | [], n + 1, d => erasedDirent :: tableSet [] n d
  | _ :: xs, 0, d => d :: xs
  | x :: xs, n + 1, d => x :: tableSet xs n d

/-- Model of `dfs_read_dirent` (dfs.c:232-247): reads the slot from flash
and reports `-ENOENT` exactly when `name[0] == '\0'`; an erased slot has
`name[0] == 0xFF` and is therefore returned as data. -/
def dfs_read_dirent (s : DfsState) (n : Nat) : Option DirEntry :=
  let d := readSlot s n
  if d.name.headD 0 = 0 then none else some d

/-- Recursive transcription of the scan loop of `ino_from_path`
(dfs.c:263-277): return the first of the next `fuel` slots starting at `i`
whose slot reads back (per `dfs_read_dirent`) with a name equal to `path`.
The loop bound `i < DFS_INODES_MAX` is carried as the remaining slot count
`fuel` so the scan is structural. -/
def ino_scan (s : DfsState) (path : List Nat) : Nat → Nat → Option Nat
  | _, 0 => none
  | i, fuel + 1 =>
      match dfs_read_dirent s i with
      | some d => if d.name = path then some i else ino_scan s path (i + 1) fuel
      | none => ino_scan s path (i + 1) fuel

/-- Model of `ino_from_path`: linear scan of slots `[0, DFS_INODES_MAX)`;
`none` models the `-1` sentinel. -/
def ino_from_path (cfg : Config) (s : DfsState) (path : List Nat) : Option Nat :=
  ino_scan s path 0 cfg.inodesMax

/-- In-memory inode fields DFS uses: `i_no`, the extent start stored in
`i_data`, and `length`. -/
structure Inode where
  i_no : Nat
  pos_start : Nat
  length : Nat
deriving DecidableEq, Repr

/-- Model of `dfs_format` (dfs.c:154-200): every block is erased (the table
beyond the written slots reads back erased), then one aligned write at
offset 0 lays down the fresh superblock and the root dirent of slot 0
(`name="/"`, `pos_start=free_space`, `len=DFS_INODES_MAX`, `flags=S_IFDIR`).
`blocks` is the device block count; the scratch is the last block. -/
def dfs_format (cfg : Config) (blocks : Nat) : DfsState :=
  let fs := cfg.szSb + cfg.inodesMax * cfg.szDe
  { sbi := { magic := [0x0D, 0xF5], inode_count := 1,
             max_inode_count := cfg.inodesMax + 1, max_len := cfg.minFileSz,
             buff_bk := blocks - 1, free_space := fs },
    dirents := [{ name := [47], pos_start := fs, len := cfg.inodesMax,
                  flags := S_IFDIR }] }

/-- Model of `dfs_icreate` (dfs.c:288-331): reload the superblock, fail with
`-ENOMEM` when `inode_count > max_inode_count`; otherwise write a fresh
dirent `{name, pos_start = free_space, len = 0, flags}` at slot
`inode_count`, return the new in-memory inode, increment `inode_count`,
advance `free_space` by `MIN_FILE_SZ`, and write the superblock back. -/
def dfs_icreate (cfg : Config) (s : DfsState) (name : List Nat) (flags : Nat) :
    Except Int (DfsState × Inode) :=
  if s.sbi.inode_count > s.sbi.max_inode_count then .error (-12)
  else
    let d : DirEntry := { name := name, pos_start := s.sbi.free_space,
                          len := 0, flags := flags }
    let ino : Inode := { i_no := s.sbi.inode_count,
                         pos_start := s.sbi.free_space, length := 0 }
    let sbi2 : SbInfo := { s.sbi with
                           inode_count := s.sbi.inode_count + 1,
                           free_space := s.sbi.free_space + cfg.minFileSz }
    .ok ({ sbi := sbi2, dirents := tableSet s.dirents s.sbi.inode_count d }, ino)

/-- Model of `dfs_itruncate` (dfs.c:342-371): reject `new_len < 0` and
`new_len > max_len` with `-1`; when `new_len == inode->length` return with
no flash write; otherwise read the dirent, patch `len`, write it back and
update the in-memory length. No comparison against the current length is
made, so the recorded length can also decrease. -/
def dfs_itruncate (s : DfsState) (ino : Inode) (new_len : Int) :
    Except Int (DfsState × Inode) :=
  if new_len < 0 then .error (-1)
  else if new_len > (s.sbi.max_len : Int) then .error (-1)
  else if new_len = (ino.length : Int) then .ok (s, ino)
  else
    let entry := readSlot s ino.i_no
    let entry2 := { entry with len := new_len.toNat }
    .ok ({ s with dirents := tableSet s.dirents ino.i_no entry2 },
         { ino with length := new_len.toNat })

/-- Model of `dfs_ilookup` (dfs.c:373-403): `ino_from_path`, then an
unchecked `dfs_read_dirent` populates the inode fields. -/
def dfs_ilookup (cfg : Config) (s : DfsState) (path : List Nat) : Option Inode :=
  match ino_from_path cfg s path with
  | none => none
  | some i =>
      let d := readSlot s i
      some { i_no := i, pos_start := d.pos_start, length := d.len }

/-- Emptiness test of `dfs_iterate` (dfs.c:424-427): the first four raw
bytes of the dirent — the leading bytes of the name field, NUL-padded —
compare equal to `0xFFFFFFFF`. -/
def empty4 (d : DirEntry) : Bool :=
  (d.name ++ List.replicate 4 0).take 4 = List.replicate 4 255

/-- Scan loop of one `dfs_iterate` call (dfs.c:423-441): first of the next
`fuel` slots starting at `i` whose raw head is not `0xFFFFFFFF`, with its
dirent; the loop bound `i < parent->length` is carried as the remaining
slot count `fuel`. -/
def dfs_iterate_scan (s : DfsState) : Nat → Nat → Option (Nat × DirEntry)
  | _, 0 => none
  | i, fuel + 1 =>
      let d := readSlot s i
      if empty4 d then dfs_iterate_scan s (i + 1) fuel else some (i, d)

/-- One `dfs_iterate` call from cursor `ctx` over a directory of length
`stop`: a cursor of 0 is advanced to 1 to skip the root slot, and the scan
runs over `[dir_pos, stop)`. -/
def dfs_iterate (s : DfsState) (stop ctx : Nat) : Option (Nat × DirEntry) :=
  let dp := if ctx = 0 then 1 else ctx
  dfs_iterate_scan s dp (stop - dp)

/-- Full enumeration by repeated `dfs_iterate` calls: every non-empty slot
of the next `fuel` slots starting at `i`, in order. -/
def dfs_enum (s : DfsState) : Nat → Nat → List (Nat × DirEntry)
  | _, 0 => []
  | i, fuel + 1 =>
      let d := readSlot s i
      if empty4 d then dfs_enum s (i + 1) fuel else (i, d) :: dfs_enum s (i + 1) fuel

/-- Return value of `dfs_read` (dfs.c:520-543) as an integer: the length is
clipped to `min(size, file_size - pos)` and `-1` is returned exactly when
the clipped length is negative; otherwise the clipped length (possibly 0)
is returned. -/
def dfs_read_ret (file_size pos size : Int) : Int :=
  let l := min size (file_size - pos)
  if l < 0 then -1 else l

/-- Return value of `dfs_write` (dfs.c:493-518) as an integer: the length
is clipped to `min(size, max_len - pos)` and `-1` is returned exactly when
the clipped length is non-positive; otherwise the clipped length. -/
def dfs_write_ret (max_len pos size : Int) : Int :=
  let l := min size (max_len - pos)
  if l ≤ 0 then -1 else l

instance {ε α : Type} [DecidableEq ε] [DecidableEq α] : DecidableEq (Except ε α) :=
  fun a b =>
    match a, b with
    | .ok x, .ok y =>
        if h : x = y then .isTrue (congrArg Except.ok h)
        else .isFalse (fun he => h (Except.ok.inj he))
    | .error x, .error y =>
        if h : x = y then .isTrue (congrArg Except.error h)
        else .isFalse (fun he => h (Except.error.inj he))
    | .ok _, .error _ => .isFalse (fun he => Except.noConfusion he)
    | .error _, .ok _ => .isFalse (fun he => Except.noConfusion he)

/-- Slot `k` of state `s` matches `path` the way `ino_from_path` tests it:
`dfs_read_dirent` succeeds (`name[0] != 0`) and `strcmp` agrees. -/
def matchAt (s : DfsState) (path : List Nat) (k : Nat) : Prop :=
  (readSlot s k).name.headD 0 ≠ 0 ∧ (readSlot s k).name = path

instance (s : DfsState) (path : List Nat) (k : Nat) : Decidable (matchAt s path k) := by
  unfold matchAt; infer_instance

/-- Example build configuration with `DFS_INODES_MAX = 2`. -/
def exCfg : Config := { inodesMax := 2, minFileSz := 8, szSb := 24, szDe := 32 }

/-- Example build configuration with `DFS_INODES_MAX = 3`. -/
def exCfg3 : Config := { inodesMax := 3, minFileSz := 8, szSb := 24, szDe := 32 }

/-- Freshly formatted device under `exCfg`, 8 blocks. -/
def exFmt : DfsState := dfs_format exCfg 8

/-- Freshly formatted device under `exCfg3`, 8 blocks. -/
def exFmt3 : DfsState := dfs_format exCfg3 8

/-- Resulting state of a create, keeping the old state on error. -/
def exStep (cfg : Config) (s : DfsState) (nm : List Nat) : DfsState :=
  match dfs_icreate cfg s nm S_IFREG with
  | .ok p => p.1
  | .error _ => s

/-- State after creating file `"a"` on the fresh `exCfg` device. -/
def exS1 : DfsState := exStep exCfg exFmt [97]

/-- State after creating `"a"` then `"b"` on the fresh `exCfg` device. -/
def exS2 : DfsState := exStep exCfg exS1 [98]

/-- State after three creates on the fresh `exCfg` device. -/
def exS3 : DfsState := exStep exCfg exS2 [99]

/-- State after creating file `"a"` on the fresh `exCfg3` device. -/
def exS1c3 : DfsState := exStep exCfg3 exFmt3 [97]

/-- Example mounted state with one regular file of recorded length 10 at
slot 1 (`max_len` 100). -/
def exTrState : DfsState :=
  { sbi := { magic := [0x0D, 0xF5], inode_count := 2, max_inode_count := 3,
             max_len := 100, buff_bk := 7, free_space := 288 },
    dirents := [{ name := [47], pos_start := 88, len := 2, flags := S_IFDIR },
                { name := [97], pos_start := 88, len := 10, flags := S_IFREG }] }

/-!
Theorems. General lemmas about the embedding first, then one theorem per
claim (with counterexamples and witnesses where required).
-/

/-- Reading through `List.take`: indices below the cut are unchanged. -/
theorem getD_take (l : List Nat) (n i d : Nat) (h : i < n) :
    (l.take n).getD i d = l.getD i d := by
  induction l generalizing n i with
  | nil => simp
  | cons x xs ih =>
    cases n with
    | zero => omega
    | succ n =>
      cases i with
      | zero => simp
      | succ i =>
        simp only [List.take_succ_cons, List.getD_cons_succ]
        exact ih n i (by omega)

/-- Reading through `List.drop` shifts the index. -/
theorem getD_drop (l : List Nat) (n i d : Nat) :
    (l.drop n).getD i d = l.getD (n + i) d := by
  induction l generalizing n with
  | nil => simp
  | cons x xs ih =>
    cases n with
    | zero => simp
    | succ n =>
      simp only [List.drop_succ_cons]
      rw [ih]
      have h : n + 1 + i = (n + i) + 1 := by omega
      rw [h, List.getD_cons_succ]

/-- Reading a slot after `tableSet`: the written slot holds the new entry,
every other slot is unchanged. -/
theorem getD_tableSet (t : List DirEntry) (n : Nat) (d : DirEntry) (i : Nat) :
    (tableSet t n d).getD i erasedDirent =
      if i = n then d else t.getD i erasedDirent := by
  induction n generalizing t i with
  | zero =>
    cases t with
    | nil =>
      cases i with
      | zero => simp [tableSet]
      | succ i => simp [tableSet]
    | cons x xs =>
      cases i with
      | zero => simp [tableSet]
      | succ i => simp [tableSet]
  | succ n ih =>
    cases t with
    | nil =>
      cases i with
      | zero => simp [tableSet]
      | succ i =>
        simp only [tableSet, List.getD_cons_succ, ih]
        by_cases h : i = n <;> simp [h]
    | cons x xs =>
      cases i with
      | zero => simp [tableSet]
      | succ i =>
        simp only [tableSet, List.getD_cons_succ, ih]
        by_cases h : i = n <;> simp [h]

/-- Slot view of a state whose dirent table was updated through `tableSet`:
the written slot holds the new entry, the rest read as in the old state. -/
theorem readSlot_after_set (sbi2 : SbInfo) (s : DfsState) (n : Nat) (d : DirEntry)
    (i : Nat) :
    readSlot { sbi := sbi2, dirents := tableSet s.dirents n d } i =
      if i = n then d else readSlot s i := by
  simp only [readSlot, getD_tableSet]

/-- Successful path of `dfs_icreate`: when `inode_count ≤ max_inode_count`
the new dirent goes to slot `inode_count` and the superblock advances. -/
theorem dfs_icreate_ok (cfg : Config) (s : DfsState) (name : List Nat) (flags : Nat)
    (hc : s.sbi.inode_count ≤ s.sbi.max_inode_count) :
    dfs_icreate cfg s name flags =
      .ok ({ sbi := { s.sbi with
                      inode_count := s.sbi.inode_count + 1,
                      free_space := s.sbi.free_space + cfg.minFileSz },
             dirents := tableSet s.dirents s.sbi.inode_count
               { name := name, pos_start := s.sbi.free_space, len := 0,
                 flags := flags } },
           { i_no := s.sbi.inode_count, pos_start := s.sbi.free_space,
             length := 0 }) := by
  unfold dfs_icreate
  rw [if_neg (by omega)]

/-- Scan of `ino_from_path` finds `j` when `j` is in range, matches, and no
earlier slot in the scanned range matches. -/
theorem ino_scan_eq_some (s : DfsState) (path : List Nat) (j : Nat)
    (hm : matchAt s path j) :
    ∀ fuel i, i ≤ j → j < i + fuel → (∀ k, i ≤ k → k < j → ¬ matchAt s path k) →
      ino_scan s path i fuel = some j := by
  intro fuel
  induction fuel with
  | zero => intro i hij hlt _; omega
  | succ fuel ih =>
    intro i hij hlt hno
    simp only [ino_scan, dfs_read_dirent]
    by_cases hij' : i = j
    · subst hij'
      rw [if_neg hm.1]
      simp [hm.2]
    · have hni : ¬ matchAt s path i := hno i (le_refl i) (by omega)
      by_cases h0i : (readSlot s i).name.headD 0 = 0
      · rw [if_pos h0i]
        exact ih (i + 1) (by omega) (by omega) (fun k hk1 hk2 => hno k (by omega) hk2)
      · rw [if_neg h0i]
        have hne : ¬ (readSlot s i).name = path := fun he => hni ⟨h0i, he⟩
        simp only [hne, if_false]
        exact ih (i + 1) (by omega) (by omega) (fun k hk1 hk2 => hno k (by omega) hk2)

/-- Inversion of the scan: a hit is in range, matches, and nothing earlier
in the scanned range matches. -/
theorem ino_scan_some_inv (s : DfsState) (path : List Nat) :
    ∀ fuel i j, ino_scan s path i fuel = some j →
      i ≤ j ∧ j < i + fuel ∧ matchAt s path j ∧
        ∀ k, i ≤ k → k < j → ¬ matchAt s path k := by
  intro fuel
  induction fuel with
  | zero => intro i j hscan; exact absurd hscan (by simp [ino_scan])
  | succ fuel ih =>
    intro i j hscan
    simp only [ino_scan, dfs_read_dirent] at hscan
    by_cases h0i : (readSlot s i).name.headD 0 = 0
    · rw [if_pos h0i] at hscan
      obtain ⟨h1, h2, h3, h4⟩ := ih (i + 1) j hscan
      refine ⟨by omega, by omega, h3, fun k hk1 hk2 => ?_⟩
      by_cases hki : k = i
      · subst hki; exact fun hmk => hmk.1 h0i
      · exact h4 k (by omega) hk2
    · rw [if_neg h0i] at hscan
      by_cases hname : (readSlot s i).name = path
      · simp only [hname, if_true] at hscan
        obtain h := Option.some.inj hscan
        subst h
        exact ⟨le_refl i, by omega, ⟨h0i, hname⟩, fun k hk1 hk2 => by omega⟩
      · simp only [hname, if_false] at hscan
        obtain ⟨h1, h2, h3, h4⟩ := ih (i + 1) j hscan
        refine ⟨by omega, by omega, h3, fun k hk1 hk2 => ?_⟩
        by_cases hki : k = i
        · subst hki; exact fun hmk => hname hmk.2
        · exact h4 k (by omega) hk2

/-- Scan of `ino_from_path` only looks at slot names: two states whose
scanned slots carry the same names scan identically. -/
theorem ino_scan_congr_names (s s2 : DfsState) (path : List Nat) :
    ∀ fuel i, (∀ k, i ≤ k → k < i + fuel → (readSlot s2 k).name = (readSlot s k).name) →
      ino_scan s2 path i fuel = ino_scan s path i fuel := by
  intro fuel
  induction fuel with
  | zero => intro i _; rfl
  | succ fuel ih =>
    intro i h
    have hnm := h i (le_refl i) (by omega)
    simp only [ino_scan, dfs_read_dirent, hnm]
    by_cases h0i : (readSlot s i).name.headD 0 = 0
    · rw [if_pos h0i, if_pos h0i]
      exact ih (i + 1) (fun k hk1 hk2 => h k (by omega) (by omega))
    · rw [if_neg h0i, if_neg h0i]
      simp only [hnm]
      by_cases hname : (readSlot s i).name = path
      · rw [if_pos hname, if_pos hname]
      · rw [if_neg hname, if_neg hname]
        exact ih (i + 1) (fun k hk1 hk2 => h k (by omega) (by omega))

/-- Enumeration yields nothing named `target` when no scanned slot carries
that name. -/
theorem dfs_enum_countP_zero (s : DfsState) (target : List Nat) :
    ∀ fuel i, (∀ k, i ≤ k → k < i + fuel → (readSlot s k).name ≠ target) →
      (dfs_enum s i fuel).countP (fun e => decide (e.2.name = target)) = 0 := by
  intro fuel
  induction fuel with
  | zero => intro i _; rfl
  | succ fuel ih =>
    intro i hno
    simp only [dfs_enum]
    by_cases he : empty4 (readSlot s i)
    · rw [if_pos he]
      exact ih (i + 1) (fun k hk1 hk2 => hno k (by omega) (by omega))
    · rw [if_neg he, List.countP_cons]
      have hni : (readSlot s i).name ≠ target := hno i (le_refl i) (by omega)
      simp only [hni, decide_False, if_false, add_zero]
      exact ih (i + 1) (fun k hk1 hk2 => hno k (by omega) (by omega))

/-- Enumeration yields the name `target` exactly once when exactly one
scanned slot carries it and that slot is not erased. -/
theorem dfs_enum_countP_one (s : DfsState) (target : List Nat) (j : Nat)
    (hne : ¬ empty4 (readSlot s j)) (hnm : (readSlot s j).name = target) :
    ∀ fuel i, i ≤ j → j < i + fuel →
      (∀ k, i ≤ k → k < i + fuel → k ≠ j → (readSlot s k).name ≠ target) →
      (dfs_enum s i fuel).countP (fun e => decide (e.2.name = target)) = 1 := by
  intro fuel
  induction fuel with
  | zero => intro i hij hlt _; omega
  | succ fuel ih =>
    intro i hij hlt hothers
    simp only [dfs_enum]
    by_cases hij' : i = j
    · subst hij'
      rw [if_neg hne, List.countP_cons]
      simp only [hnm, decide_True, if_true]
      rw [dfs_enum_countP_zero s target fuel (i + 1)
        (fun k hk1 hk2 => hothers k (by omega) (by omega) (by omega))]
    · by_cases he : empty4 (readSlot s i)
      · rw [if_pos he]
        exact ih (i + 1) (by omega) (by omega)
          (fun k hk1 hk2 hkj => hothers k (by omega) (by omega) hkj)
      · rw [if_neg he, List.countP_cons]
        have hni : (readSlot s i).name ≠ target := hothers i (le_refl i) (by omega) hij'
        simp only [hni, decide_False, if_false, add_zero]
        exact ih (i + 1) (by omega) (by omega)
          (fun k hk1 hk2 hkj => hothers k (by omega) (by omega) hkj)

/-- Properties of the state a successful `dfs_icreate` returns: the new
inode number is the old `inode_count`, the new dirent sits at that slot
with every other slot unchanged, and `inode_count` advanced by one. -/
theorem after_create_props (cfg : Config) (s : DfsState) (name : List Nat)
    (flags : Nat) (s2 : DfsState) (ino : Inode)
    (h : dfs_icreate cfg s name flags = .ok (s2, ino)) :
    ino.i_no = s.sbi.inode_count ∧
    (∀ i, readSlot s2 i =
      if i = s.sbi.inode_count then
        { name := name, pos_start := s.sbi.free_space, len := 0, flags := flags }
      else readSlot s i) ∧
    s2.sbi.inode_count = s.sbi.inode_count + 1 ∧
    s2.sbi.free_space = s.sbi.free_space + cfg.minFileSz := by
  unfold dfs_icreate at h
  by_cases hc : s.sbi.inode_count > s.sbi.max_inode_count
  · rw [if_pos hc] at h
    exact absurd h (by simp)
  · rw [if_neg hc] at h
    injection h with h1
    injection h1 with h2 h3
    subst h2 h3
    exact ⟨rfl, fun i => readSlot_after_set _ s _ _ i, rfl, rfl⟩

/-- C2 amended: a successful `create(name)` is found again by `lookup` and
enumerated exactly once by `iterate` provided the name is fresh, is a
non-empty C string not starting with four 0xFF bytes, and the slot it
lands in (`inode_count`) lies in `[1, DFS_INODES_MAX)`; a create landing
at slot `DFS_INODES_MAX` or beyond succeeds but is invisible to both. -/
theorem C2_create_lookup_iterate (cfg : Config) (s : DfsState) (name : List Nat)
    (flags : Nat)
    (hcap : s.sbi.inode_count ≤ s.sbi.max_inode_count)
    (hslot : s.sbi.inode_count < cfg.inodesMax)
    (hroot : 1 ≤ s.sbi.inode_count)
    (hrootlen : (readSlot s 0).len = cfg.inodesMax)
    (hfresh : ∀ i, i < cfg.inodesMax → (readSlot s i).name ≠ name)
    (hname0 : name.headD 0 ≠ 0)
    (hname4 : (name ++ List.replicate 4 0).take 4 ≠ List.replicate 4 255) :
    ∃ s2 ino, dfs_icreate cfg s name flags = .ok (s2, ino) ∧
      ino.i_no = s.sbi.inode_count ∧
      ino_from_path cfg s2 name = some ino.i_no ∧
      (dfs_ilookup cfg s2 name).map Inode.i_no = some ino.i_no ∧
      (dfs_enum s2 1 ((readSlot s2 0).len - 1)).countP
        (fun e => decide (e.2.name = name)) = 1 := by
  obtain ⟨s2, ino, hcreate⟩ : ∃ s2 ino, dfs_icreate cfg s name flags = .ok (s2, ino) :=
    ⟨_, _, dfs_icreate_ok cfg s name flags hcap⟩
  obtain ⟨hino_no, hsv, _, _⟩ := after_create_props cfg s name flags s2 ino hcreate
  have hA : ino_from_path cfg s2 name = some s.sbi.inode_count := by
    unfold ino_from_path
    apply ino_scan_eq_some s2 name s.sbi.inode_count ?hm cfg.inodesMax 0 (by omega)
      (by omega) ?hno
    case hm =>
      constructor
      · rw [hsv s.sbi.inode_count, if_pos rfl]
        exact hname0
      · rw [hsv s.sbi.inode_count, if_pos rfl]
    case hno =>
      intro k _ hk hmk
      have hk2 := hmk.2
      rw [hsv k, if_neg (by omega)] at hk2
      exact hfresh k (by omega) hk2
  refine ⟨s2, ino, hcreate, hino_no, by rw [hino_no]; exact hA, ?_, ?_⟩
  · simp only [dfs_ilookup, hA, hino_no]
    rfl
  · have hlen0 : (readSlot s2 0).len = cfg.inodesMax := by
      rw [hsv 0, if_neg (by omega)]
      exact hrootlen
    rw [hlen0]
    apply dfs_enum_countP_one s2 name s.sbi.inode_count ?hne ?hnm
      (cfg.inodesMax - 1) 1 (by omega) (by omega) ?hothers
    case hne =>
      rw [hsv s.sbi.inode_count, if_pos rfl]
      simp only [empty4, decide_eq_true_eq]
      exact hname4
    case hnm => rw [hsv s.sbi.inode_count, if_pos rfl]
    case hothers =>
      intro k hk1 hk2 hkn
      rw [hsv k, if_neg hkn]
      exact hfresh k (by omega)

/-- C10: `dfs_icreate` never checks name uniqueness: with capacity left, a
create of a name already present at slot `j` succeeds and writes a new
dirent at slot `inode_count`, and a later `ino_from_path` still returns
`j`, the lowest-indexed (oldest) slot carrying the name. -/
theorem C10_duplicate_create (cfg : Config) (s : DfsState) (name : List Nat)
    (flags : Nat) (j : Nat)
    (hcap : s.sbi.inode_count ≤ s.sbi.max_inode_count)
    (hj : ino_from_path cfg s name = some j)
    (hjn : j < s.sbi.inode_count) :
    ∃ s2 ino, dfs_icreate cfg s name flags = .ok (s2, ino) ∧
      ino.i_no = s.sbi.inode_count ∧
      readSlot s2 ino.i_no =
        { name := name, pos_start := s.sbi.free_space, len := 0, flags := flags } ∧
      ino_from_path cfg s2 name = some j := by
  obtain ⟨s2, ino, hcreate⟩ : ∃ s2 ino, dfs_icreate cfg s name flags = .ok (s2, ino) :=
    ⟨_, _, dfs_icreate_ok cfg s name flags hcap⟩
  obtain ⟨hino_no, hsv, _, _⟩ := after_create_props cfg s name flags s2 ino hcreate
  obtain ⟨h1, h2, h3, h4⟩ := ino_scan_some_inv s name cfg.inodesMax 0 j hj
  refine ⟨s2, ino, hcreate, hino_no, ?_, ?_⟩
  · rw [hino_no, hsv s.sbi.inode_count, if_pos rfl]
  · unfold ino_from_path
    apply ino_scan_eq_some s2 name j ?hm cfg.inodesMax 0 (by omega) (by omega) ?hno
    case hm =>
      refine ⟨?_, ?_⟩ <;> rw [hsv j, if_neg (by omega)]
      · exact h3.1
      · exact h3.2
    case hno =>
      intro k hk1 hk2 hmk
      apply h4 k hk1 hk2
      have hkn : k ≠ s.sbi.inode_count := by omega
      refine ⟨?_, ?_⟩
      · have := hmk.1
        rwa [hsv k, if_neg hkn] at this
      · have := hmk.2
        rwa [hsv k, if_neg hkn] at this

/-- C8: truncating to `n` with `0 ≤ n ≤ max_len` and `n` at least the
current length is idempotent — a second identical call returns the exact
same state without a flash write — and a subsequent lookup of the file
reports length `n`. -/
theorem C8_truncate_idem (cfg : Config) (s : DfsState) (ino : Inode)
    (name : List Nat) (n : Int)
    (h0 : 0 ≤ n) (hmax : n ≤ (s.sbi.max_len : Int)) (hge : (ino.length : Int) ≤ n)
    (hsync : (readSlot s ino.i_no).len = ino.length)
    (hino : ino_from_path cfg s name = some ino.i_no) :
    ∃ s2 ino2, dfs_itruncate s ino n = .ok (s2, ino2) ∧
      dfs_itruncate s2 ino2 n = .ok (s2, ino2) ∧
      ino2.length = n.toNat ∧
      (dfs_ilookup cfg s2 name).map Inode.length = some n.toNat := by
  by_cases hn : n = (ino.length : Int)
  · refine ⟨s, ino, ?_, ?_, by omega, ?_⟩
    · unfold dfs_itruncate
      rw [if_neg (by omega), if_neg (by omega), if_pos hn]
    · unfold dfs_itruncate
      rw [if_neg (by omega), if_neg (by omega), if_pos hn]
    · simp only [dfs_ilookup, hino]
      rw [hsync]
      have hln : ino.length = n.toNat := by omega
      rw [hln]
      rfl
  · set e2 : DirEntry := { readSlot s ino.i_no with len := n.toNat } with he2
    set sNew : DfsState := { s with dirents := tableSet s.dirents ino.i_no e2 } with hsNew
    refine ⟨sNew, { ino with length := n.toNat }, ?_, ?_, rfl, ?_⟩
    · unfold dfs_itruncate
      rw [if_neg (by omega), if_neg (by omega), if_neg hn]
    · unfold dfs_itruncate
      rw [if_neg (by omega)]
      rw [if_neg (show ¬ n > ((s.sbi.max_len : Nat) : Int) by omega)]
      rw [if_pos (show n = ((n.toNat : Nat) : Int) by omega)]
    · have hagree : ∀ k, 0 ≤ k → k < 0 + cfg.inodesMax →
          (readSlot sNew k).name = (readSlot s k).name := by
        intro k _ _
        rw [hsNew, readSlot_after_set]
        by_cases hk : k = ino.i_no
        · subst hk
          rw [if_pos rfl, he2]
        · rw [if_neg hk]
      have hscan : ino_from_path cfg sNew name = some ino.i_no := by
        unfold ino_from_path at hino ⊢
        rw [ino_scan_congr_names s sNew name cfg.inodesMax 0 hagree]
        exact hino
      simp only [dfs_ilookup, hscan]
      rw [hsNew, readSlot_after_set, if_pos rfl]
      rfl

end DFS

namespace DFS

/-- C9: after `dfs_format` the superblock carries magic `{0x0D, 0xF5}`,
`inode_count = 1` and `free_space = sizeof(sb_info) + DFS_INODES_MAX *
sizeof(dir_entry)`, and slot 0 is the root dirent with name `"/"`,
`pos_start = free_space`, `len = DFS_INODES_MAX` and the directory flag. -/
theorem C9_format_state (cfg : Config) (blocks : Nat) :
    (dfs_format cfg blocks).sbi.magic = [0x0D, 0xF5] ∧
    (dfs_format cfg blocks).sbi.inode_count = 1 ∧
    (dfs_format cfg blocks).sbi.free_space = cfg.szSb + cfg.inodesMax * cfg.szDe ∧
    readSlot (dfs_format cfg blocks) 0 =
      { name := [47], pos_start := (dfs_format cfg blocks).sbi.free_space,
        len := cfg.inodesMax, flags := S_IFDIR } := by
  exact ⟨rfl, rfl, rfl, rfl⟩

/-- C6 counterexample: with `file_length = 5`, `file_pos = 5`, `size = 3`,
the clipped read length is 0 (non-positive), yet `dfs_read` returns 0 and
not a negative error, contrary to the claim that read errors exactly when
the clipped length is non-positive. -/
theorem C6_counterexample :
    min (3 : Int) ((5 : Int) - (5 : Int)) ≤ 0 ∧
    dfs_read_ret 5 5 3 = 0 ∧ ¬ dfs_read_ret 5 5 3 < 0 := by decide

/-- C6 amended: `dfs_read` clips to `min(size, file_length - file_pos)` and
returns a negative error exactly when the clipped length is negative
(returning the clipped length, including 0, otherwise); `dfs_write` clips
to `min(size, max_len - file_pos)` and errors exactly when the clipped
length is non-positive, returning it otherwise. -/
theorem C6_read_write_clip (file_size max_len pos size : Int) :
    dfs_read_ret file_size pos size =
      (if min size (file_size - pos) < 0 then -1 else min size (file_size - pos)) ∧
    (dfs_read_ret file_size pos size < 0 ↔ min size (file_size - pos) < 0) ∧
    dfs_write_ret max_len pos size =
      (if min size (max_len - pos) ≤ 0 then -1 else min size (max_len - pos)) ∧
    (dfs_write_ret max_len pos size < 0 ↔ min size (max_len - pos) ≤ 0) := by
  refine ⟨rfl, ?_, rfl, ?_⟩ <;>
    · simp only [dfs_read_ret, dfs_write_ret, min_def]
      split_ifs <;> omega

/-- C5: `dfs_itruncate` does not enforce grow-only, contradicting its own
doc comment ("In this FS we can only increase size"): on a file of
recorded length 10 (`max_len` 100), truncating to 5 succeeds and rewrites
the dirent with `len = 5`. -/
theorem C5_truncate_shrinks :
    (5 : Int) < 10 ∧ (10 : Nat) ≤ exTrState.sbi.max_len ∧
    dfs_itruncate exTrState { i_no := 1, pos_start := 88, length := 10 } 5 =
      .ok ({ sbi := exTrState.sbi,
             dirents := [{ name := [47], pos_start := 88, len := 2, flags := S_IFDIR },
                         { name := [97], pos_start := 88, len := 5, flags := S_IFREG }] },
           { i_no := 1, pos_start := 88, length := 5 }) := by decide

/-- C3: the capacity check of `dfs_icreate` is off by one. With
`DFS_INODES_MAX = 2` and a fresh filesystem (`inode_count = 1`,
`max_inode_count = 3`), the first two creates succeed; the third create —
which the claim says must fail with `NOMEM` — also succeeds, because the
test `inode_count > max_inode_count` does not fire at equality, pushing
`inode_count` to 4 > `max_inode_count` and writing a dirent beyond the
table. Only the fourth create fails. -/
theorem C3_exhaustion_off_by_one :
    exCfg.inodesMax = 2 ∧
    exFmt.sbi.inode_count = 1 ∧ exFmt.sbi.max_inode_count = 3 ∧
    dfs_icreate exCfg exFmt [97] S_IFREG =
      .ok (exS1, { i_no := 1, pos_start := 88, length := 0 }) ∧
    dfs_icreate exCfg exS1 [98] S_IFREG =
      .ok (exS2, { i_no := 2, pos_start := 96, length := 0 }) ∧
    exS2.sbi.inode_count = 3 ∧ exS2.sbi.max_inode_count = 3 ∧
    dfs_icreate exCfg exS2 [99] S_IFREG =
      .ok (exS3, { i_no := 3, pos_start := 104, length := 0 }) ∧
    exS3.sbi.inode_count = 4 ∧
    dfs_icreate exCfg exS3 [100] S_IFREG = .error (-12) := by decide

/-- C2 counterexample: with `DFS_INODES_MAX = 2`, on a state with
`inode_count = 2` the create of `"b"` succeeds and writes slot 2, but
`ino_from_path` scans only slots `[0, DFS_INODES_MAX)`, so the lookup of
`"b"` fails and a full enumeration of the root directory never yields it. -/
theorem C2_counterexample :
    dfs_icreate exCfg exS1 [98] S_IFREG =
      .ok (exS2, { i_no := 2, pos_start := 96, length := 0 }) ∧
    dfs_ilookup exCfg exS2 [98] = none ∧
    (dfs_enum exS2 1 ((readSlot exS2 0).len - 1)).countP
      (fun e => decide (e.2.name = [98])) = 0 := by decide


/-- Witness for C2: on a freshly formatted 3-inode device, creating `"a"`
lands at slot 1, lookup finds it there, and iterate yields it once. -/
theorem C2_create_lookup_iterate_witness :
    exFmt3.sbi.inode_count ≤ exFmt3.sbi.max_inode_count ∧
    exFmt3.sbi.inode_count < exCfg3.inodesMax ∧
    1 ≤ exFmt3.sbi.inode_count ∧
    (readSlot exFmt3 0).len = exCfg3.inodesMax ∧
    (∃ s2 ino, dfs_icreate exCfg3 exFmt3 [97] S_IFREG = .ok (s2, ino) ∧
      ino.i_no = exFmt3.sbi.inode_count ∧
      ino_from_path exCfg3 s2 [97] = some ino.i_no ∧
      (dfs_ilookup exCfg3 s2 [97]).map Inode.i_no = some ino.i_no ∧
      (dfs_enum s2 1 ((readSlot s2 0).len - 1)).countP
        (fun e => decide (e.2.name = [97])) = 1) :=
  ⟨by decide, by decide, by decide, by decide,
   C2_create_lookup_iterate exCfg3 exFmt3 [97] S_IFREG (by decide) (by decide)
     (by decide) (by decide) (by decide) (by decide) (by decide)⟩

/-- Witness for C10: with `"a"` already at slot 1, creating `"a"` again
succeeds at slot 2 while lookup keeps returning slot 1. -/
theorem C10_duplicate_create_witness :
    exS1c3.sbi.inode_count ≤ exS1c3.sbi.max_inode_count ∧
    ino_from_path exCfg3 exS1c3 [97] = some 1 ∧
    1 < exS1c3.sbi.inode_count ∧
    (∃ s2 ino, dfs_icreate exCfg3 exS1c3 [97] S_IFREG = .ok (s2, ino) ∧
      ino.i_no = exS1c3.sbi.inode_count ∧
      readSlot s2 ino.i_no =
        { name := [97], pos_start := exS1c3.sbi.free_space, len := 0,
          flags := S_IFREG } ∧
      ino_from_path exCfg3 s2 [97] = some 1) :=
  ⟨by decide, by decide, by decide,
   C10_duplicate_create exCfg3 exS1c3 [97] S_IFREG 1 (by decide) (by decide)
     (by decide)⟩

/-- Witness for C8: growing the length-10 file to 20 is idempotent and a
later lookup reports length 20. -/
theorem C8_truncate_idem_witness :
    (0 : Int) ≤ 20 ∧ (20 : Int) ≤ (exTrState.sbi.max_len : Int) ∧
    (((⟨1, 88, 10⟩ : Inode).length : Int) ≤ 20) ∧
    (readSlot exTrState (⟨1, 88, 10⟩ : Inode).i_no).len = (⟨1, 88, 10⟩ : Inode).length ∧
    ino_from_path exCfg exTrState [97] = some (⟨1, 88, 10⟩ : Inode).i_no ∧
    (∃ s2 ino2, dfs_itruncate exTrState ⟨1, 88, 10⟩ 20 = .ok (s2, ino2) ∧
      dfs_itruncate s2 ino2 20 = .ok (s2, ino2) ∧
      ino2.length = (20 : Int).toNat ∧
      (dfs_ilookup exCfg s2 [97]).map Inode.length = some (20 : Int).toNat) :=
  ⟨by decide, by decide, by decide, by decide, by decide,
   C8_truncate_idem exCfg exTrState ⟨1, 88, 10⟩ [97] 20 (by decide) (by decide)
     (by decide) (by decide) (by decide)⟩


/-- Unfolding `applyOps` over list append. -/
theorem applyOps_append (B : Nat) (f : Flash) (l1 l2 : List FlashOp) :
    applyOps B f (l1 ++ l2) = applyOps B (applyOps B f l1) l2 := by
  simp [applyOps, List.foldl_append]

/-- Characterisation of the block an address belongs to. -/
theorem div_block_iff (B : Nat) (hB : 0 < B) (a c : Nat) :
    a / B = c ↔ c * B ≤ a ∧ a < c * B + B := by
  constructor
  · intro h
    constructor
    · calc c * B = a / B * B := by rw [h]
        _ ≤ a := Nat.div_mul_le_self a B
    · have h1 := Nat.div_add_mod a B
      rw [h, mul_comm] at h1
      have h2 : a % B < B := Nat.mod_lt _ hB
      omega
  · intro hc
    have l1 : c ≤ a / B := (Nat.le_div_iff_mul_le hB).mpr hc.1
    have l2 : a / B < c + 1 := (Nat.div_lt_iff_lt_mul hB).mpr
      (by calc a < c * B + B := hc.2
            _ = (c + 1) * B := by ring)
    omega

/-- Distinct blocks occupy disjoint address ranges. -/
theorem blocks_disjoint (B : Nat) (c d : Nat) (hne : c ≠ d) :
    c * B + B ≤ d * B ∨ d * B + B ≤ c * B := by
  rcases Nat.lt_or_ge c d with h | h
  · left
    calc c * B + B = (c + 1) * B := by ring
      _ ≤ d * B := Nat.mul_le_mul_right _ (by omega)
  · right
    calc d * B + B = (d + 1) * B := by ring
      _ ≤ c * B := Nat.mul_le_mul_right _ (by omega)

/-- Reading `List.take` at one index under an index rewrite. -/
theorem getD_take_eq (l : List Nat) (n i j d : Nat) (h : i = j) (h2 : j < n) :
    (l.take n).getD i d = l.getD j d := by
  subst h
  exact getD_take l n i d h2

/-- Pointwise result of a single-block `dfs_write_buffered` (the
`start_bk == last_bk` branch, dfs.c:125-129 plus the common head and tail):
outside the scratch block, the written range holds `buff` and everything
else is untouched. -/
theorem single_block_eval (B : Nat) (f : Flash) (pos size scratch : Nat)
    (buff : List Nat) (hB : 0 < B) (hps : pos % B + size < B)
    (hscr : pos / B ≠ scratch) (hlen : size ≤ buff.length) :
    ∀ a, a / B ≠ scratch →
      dfs_write_buffered B f pos buff size scratch a =
        if pos ≤ a ∧ a < pos + size then buff.getD (a - pos) 255 else f a := by
  have hq : (pos + size) / B = pos / B := by
    have hdm := Nat.div_add_mod pos B
    have h1 : pos + size = B * (pos / B) + (pos % B + size) := by omega
    rw [h1, Nat.mul_add_div hB, Nat.div_eq_of_lt hps, Nat.add_zero]
  have hops : dfs_write_buffered_ops B pos buff size scratch =
      [.erase scratch, .copyAligned (scratch * B) (pos / B * B) (pos % B),
       .writeAligned (scratch * B + pos % B) (buff.take size),
       .copyAligned (scratch * B + (pos % B + size))
         (pos / B * B + (pos % B + size)) (B - (pos % B + size)),
       .copyBlock (pos / B) scratch] := by
    simp only [dfs_write_buffered_ops]
    rw [hq]
    simp
  intro a ha
  unfold dfs_write_buffered
  rw [hops]
  have hdm := Nat.div_add_mod pos B
  have hp : pos % B < B := Nat.mod_lt _ hB
  have htl : (buff.take size).length = size := by
    rw [List.length_take]
    omega
  have hdisj := blocks_disjoint B (pos / B) scratch hscr
  have ha2 : ¬ (scratch * B ≤ a ∧ a < scratch * B + B) :=
    fun hc => ha ((div_block_iff B hB a scratch).mpr hc)
  have haq : a / B = pos / B ∨ ¬ (pos / B * B ≤ a ∧ a < pos / B * B + B) := by
    by_cases hc : a / B = pos / B
    · exact Or.inl hc
    · exact Or.inr (fun hcc => hc ((div_block_iff B hB a (pos / B)).mpr hcc))
  have haq2 : a / B = pos / B → pos / B * B ≤ a ∧ a < pos / B * B + B :=
    fun hc => (div_block_iff B hB a (pos / B)).mp hc
  have hS1 : (scratch + 1) * B = scratch * B + B := by ring
  have hQ1 : (pos / B + 1) * B = pos / B * B + B := by ring
  simp only [applyOps, List.foldl, applyOp, hS1, hQ1, htl]
  generalize hgq : pos / B = q at *
  generalize hgp : pos % B = p at *
  rw [Nat.mul_comm B q] at hdm
  rcases haq with hc | hc
  · have hca := haq2 hc
    split_ifs <;>
      first
        | omega
        | exact getD_take_eq _ _ _ _ _ (by omega) (by omega)
        | (congr 1; omega)
  · split_ifs <;>
      first
        | omega
        | exact getD_take_eq _ _ _ _ _ (by omega) (by omega)
        | (congr 1; omega)


/-- Reading `List.getD` under an index rewrite. -/
theorem getD_congr (l : List Nat) (i j d : Nat) (h : i = j) :
    l.getD i d = l.getD j d := by rw [h]

/-- Unfolding one operation of `applyOps`. -/
theorem applyOps_cons (B : Nat) (f : Flash) (op : FlashOp) (ops : List FlashOp) :
    applyOps B f (op :: ops) = applyOps B (applyOp B f op) ops := rfl

/-- Pointwise result of the intermediate-block loop: the `m` blocks from
`bk` hold the corresponding bytes of `buff`, everything else is whatever
the incoming state `g` held. -/
theorem mid_ops_eval (B : Nat) (hB : 0 < B) :
    ∀ (m : Nat) (bk : Nat) (buff : List Nat) (g : Flash), B * m ≤ buff.length →
      ∀ a, applyOps B g (dfs_mid_ops B bk buff m) a =
        if bk * B ≤ a ∧ a < bk * B + m * B then buff.getD (a - bk * B) 255 else g a := by
  intro m
  induction m with
  | zero =>
    intro bk buff g _ a
    simp only [dfs_mid_ops, applyOps, List.foldl, Nat.zero_mul, Nat.add_zero]
    rw [if_neg (by omega)]
  | succ m ih =>
    intro bk buff g hlen a
    have hBm : B * 1 ≤ B * (m + 1) := Nat.mul_le_mul_left B (by omega)
    have htk : (buff.take B).length = B := by
      rw [List.length_take]
      omega
    have hdlen : B * m ≤ (buff.drop B).length := by
      rw [List.length_drop]
      have h2 : B * (m + 1) = B * m + B := by ring
      omega
    simp only [dfs_mid_ops]
    rw [applyOps_cons, applyOps_cons, ih (bk + 1) (buff.drop B) _ hdlen a]
    simp only [applyOp, htk]
    have hb1 : (bk + 1) * B = bk * B + B := by ring
    have hm1 : (m + 1) * B = m * B + B := by ring
    simp only [hb1, hm1]
    split_ifs <;>
      first
        | omega
        | (rw [getD_drop]; exact getD_congr _ _ _ _ (by omega))
        | exact getD_take_eq _ _ _ _ _ (by omega) (by omega)

/-- Pointwise result of the four leading operations of the multi-block
path of `dfs_write_buffered` (erase scratch, stage the head of block `q`,
fill the scratch from `buff`, publish to `q`): outside the scratch block,
block `q` now carries its old head and then `buff`, and nothing else
changed. -/
theorem head_ops_eval (B : Nat) (f : Flash) (q p scratch : Nat) (buff : List Nat)
    (hB : 0 < B) (hp : p < B) (hscr : q ≠ scratch) (hlen : B - p ≤ buff.length) :
    ∀ a, a / B ≠ scratch →
      applyOps B f [.erase scratch, .copyAligned (scratch * B) (q * B) p,
        .writeAligned (scratch * B + p) (buff.take (B - p)),
        .copyBlock q scratch] a =
      (if q * B ≤ a ∧ a < q * B + B then
        (if a < q * B + p then f a else buff.getD (a - q * B - p) 255)
      else f a) := by
  intro a ha
  have htk : (buff.take (B - p)).length = B - p := by
    rw [List.length_take]
    omega
  have hdisj := blocks_disjoint B q scratch hscr
  have ha2 : ¬ (scratch * B ≤ a ∧ a < scratch * B + B) :=
    fun hc => ha ((div_block_iff B hB a scratch).mpr hc)
  have hS1 : (scratch + 1) * B = scratch * B + B := by ring
  have hQ1 : (q + 1) * B = q * B + B := by ring
  simp only [applyOps, List.foldl, applyOp, hS1, hQ1, htk]
  split_ifs <;>
    first
      | omega
      | exact getD_take_eq _ _ _ _ _ (by omega) (by omega)
      | (congr 1; omega)

/-- Pointwise result of the four trailing operations of the multi-block
path (erase scratch, write the remaining `t` bytes at the scratch base,
stage the tail of block `L`, publish to `L`): outside the scratch block,
the head of block `L` carries the staged bytes and everything else,
including the tail of block `L`, is whatever the incoming state held. -/
theorem tail_ops_eval (B : Nat) (g : Flash) (L t scratch : Nat) (buns : List Nat)
    (hB : 0 < B) (ht : t < B) (hscr : L ≠ scratch) (hlen : t ≤ buns.length) :
    ∀ a, a / B ≠ scratch →
      applyOps B g [.erase scratch, .writeAligned (scratch * B) (buns.take t),
        .copyAligned (scratch * B + t) (L * B + t) (B - t),
        .copyBlock L scratch] a =
      (if L * B ≤ a ∧ a < L * B + t then buns.getD (a - L * B) 255 else g a) := by
  intro a ha
  have htk : (buns.take t).length = t := by
    rw [List.length_take]
    omega
  have hdisj := blocks_disjoint B L scratch hscr
  have ha2 : ¬ (scratch * B ≤ a ∧ a < scratch * B + B) :=
    fun hc => ha ((div_block_iff B hB a scratch).mpr hc)
  have haL : a / B = L ∨ ¬ (L * B ≤ a ∧ a < L * B + B) := by
    by_cases hc : a / B = L
    · exact Or.inl hc
    · exact Or.inr (fun hcc => hc ((div_block_iff B hB a L).mpr hcc))
  have haL2 : a / B = L → L * B ≤ a ∧ a < L * B + B :=
    fun hc => (div_block_iff B hB a L).mp hc
  have hS1 : (scratch + 1) * B = scratch * B + B := by ring
  have hL1 : (L + 1) * B = L * B + B := by ring
  simp only [applyOps, List.foldl, applyOp, hS1, hL1, htk]
  rcases haL with hc | hc
  · have hca := haL2 hc
    split_ifs <;>
      first
        | omega
        | exact getD_take_eq _ _ _ _ _ (by omega) (by omega)
        | (congr 1; omega)
  · split_ifs <;>
      first
        | omega
        | exact getD_take_eq _ _ _ _ _ (by omega) (by omega)
        | (congr 1; omega)


/-- Shape of the trace in the multi-block case. -/
theorem dfs_write_buffered_ops_multi_eq (B pos size scratch : Nat) (buff : List Nat)
    (hne : ¬ pos / B = (pos + size) / B) :
    dfs_write_buffered_ops B pos buff size scratch =
      [.erase scratch, .copyAligned (scratch * B) (pos / B * B) (pos % B),
       .writeAligned (scratch * B + pos % B) (buff.take (B - pos % B)),
       .copyBlock (pos / B) scratch]
      ++ dfs_mid_ops B (pos / B + 1) (buff.drop (B - pos % B))
           ((pos + size) / B - (pos / B + 1))
      ++ [.erase scratch,
          .writeAligned (scratch * B)
            (((buff.drop (B - pos % B)).drop
                (((pos + size) / B - (pos / B + 1)) * B)).take ((pos % B + size) % B)),
          .copyAligned (scratch * B + (pos % B + size) % B)
            ((pos + size) / B * B + (pos % B + size) % B)
            (B - (pos % B + size) % B),
          .copyBlock ((pos + size) / B) scratch] := by
  simp only [dfs_write_buffered_ops]
  rw [if_neg hne]

/-- Shape of the trace in the single-block case. -/
theorem dfs_write_buffered_ops_single_eq (B pos size scratch : Nat) (buff : List Nat)
    (heq : pos / B = (pos + size) / B) :
    dfs_write_buffered_ops B pos buff size scratch =
      [.erase scratch, .copyAligned (scratch * B) (pos / B * B) (pos % B),
       .writeAligned (scratch * B + pos % B) (buff.take size),
       .copyAligned (scratch * B + (pos % B + size))
         (pos / B * B + (pos % B + size)) (B - (pos % B + size)),
       .copyBlock (pos / B) scratch] := by
  simp only [dfs_write_buffered_ops]
  rw [← heq]
  simp

/-- Main correctness of `dfs_write_buffered` at every byte outside the
scratch block: the written range `[pos, pos + size)` carries `buff`, and
every other byte — including the rest of the touched erase blocks — is
unchanged. Assumes the blocks the engine touches are distinct from the
scratch block (invariants I5/I6 of the layout). -/
theorem dfs_write_buffered_eval (B : Nat) (f : Flash) (pos size scratch : Nat)
    (buff : List Nat) (hB : 0 < B) (hlen : size ≤ buff.length)
    (hscr : ∀ bk, pos / B ≤ bk → bk ≤ (pos + size) / B → bk ≠ scratch) :
    ∀ a, a / B ≠ scratch →
      dfs_write_buffered B f pos buff size scratch a =
        if pos ≤ a ∧ a < pos + size then buff.getD (a - pos) 255 else f a := by
  have hq_le : pos / B ≤ (pos + size) / B := Nat.div_le_div_right (by omega)
  by_cases hcase : pos / B = (pos + size) / B
  · have hdm := Nat.div_add_mod pos B
    have hd2 : (pos + size) / B = pos / B + (pos % B + size) / B := by
      rw [show pos + size = B * (pos / B) + (pos % B + size) from by omega,
        Nat.mul_add_div hB]
    have hps : pos % B + size < B := by
      have h3 : (pos % B + size) / B = 0 := by omega
      exact (Nat.div_eq_zero_iff hB).mp h3
    exact single_block_eval B f pos size scratch buff hB hps
      (hscr _ (le_refl _) (by omega)) hlen
  · intro a ha
    unfold dfs_write_buffered
    rw [dfs_write_buffered_ops_multi_eq B pos size scratch buff hcase]
    rw [applyOps_append, applyOps_append]
    have hdm := Nat.div_add_mod pos B
    have hd2 := Nat.div_add_mod (pos + size) B
    have hp : pos % B < B := Nat.mod_lt _ hB
    have htB : (pos % B + size) % B < B := Nat.mod_lt _ hB
    have htt : (pos + size) % B = (pos % B + size) % B := by
      rw [show pos + size = B * (pos / B) + (pos % B + size) from by omega,
        Nat.mul_add_mod]
    have hqL : pos / B < (pos + size) / B := by omega
    have hLm : (pos + size) / B = pos / B + 1 + ((pos + size) / B - (pos / B + 1)) := by
      omega
    have hBL : B * ((pos + size) / B) =
        B * (pos / B) + B + B * ((pos + size) / B - (pos / B + 1)) := by
      calc B * ((pos + size) / B)
          = B * (pos / B + 1 + ((pos + size) / B - (pos / B + 1))) := by rw [← hLm]
        _ = B * (pos / B) + B + B * ((pos + size) / B - (pos / B + 1)) := by ring
    have hc1 : pos / B * B = B * (pos / B) := Nat.mul_comm _ _
    have hc2 : (pos + size) / B * B = B * ((pos + size) / B) := Nat.mul_comm _ _
    have hc3 : ((pos + size) / B - (pos / B + 1)) * B =
        B * ((pos + size) / B - (pos / B + 1)) := Nat.mul_comm _ _
    have hQ1 : (pos / B + 1) * B = pos / B * B + B := by ring
    have hlen1 : B - pos % B ≤ buff.length := by omega
    have hmlen : B * ((pos + size) / B - (pos / B + 1)) ≤
        (buff.drop (B - pos % B)).length := by
      rw [List.length_drop]
      omega
    have htlen : (pos % B + size) % B ≤
        ((buff.drop (B - pos % B)).drop
          (((pos + size) / B - (pos / B + 1)) * B)).length := by
      rw [List.length_drop, List.length_drop]
      omega
    have hsq : pos / B ≠ scratch := hscr _ (le_refl _) (by omega)
    have hsL : (pos + size) / B ≠ scratch := hscr _ (by omega) (le_refl _)
    rw [tail_ops_eval B _ ((pos + size) / B) ((pos % B + size) % B) scratch _ hB htB
      hsL htlen a ha]
    rw [mid_ops_eval B hB ((pos + size) / B - (pos / B + 1)) (pos / B + 1)
      (buff.drop (B - pos % B)) _ hmlen a]
    rw [head_ops_eval B f (pos / B) (pos % B) scratch buff hB hp hsq hlen1 a ha]
    simp only [hQ1]
    split_ifs <;>
      first
        | omega
        | (rw [getD_drop, getD_drop]; exact getD_congr _ _ _ _ (by omega))
        | (rw [getD_drop]; exact getD_congr _ _ _ _ (by omega))
        | exact getD_congr _ _ _ _ (by omega)
        | (congr 1; omega)


/-- Splitting `persistentErases` over one operation. -/
theorem persistentErases_cons (scratch : Nat) (op : FlashOp) (ops : List FlashOp) :
    persistentErases scratch (op :: ops) =
      opPersistentErases scratch op + persistentErases scratch ops := by
  simp [persistentErases]

/-- Splitting `persistentErases` over append. -/
theorem persistentErases_append (scratch : Nat) (l1 l2 : List FlashOp) :
    persistentErases scratch (l1 ++ l2) =
      persistentErases scratch l1 + persistentErases scratch l2 := by
  simp [persistentErases]

/-- Splitting `erasesOfBlock` over one operation. -/
theorem erasesOfBlock_cons (bk : Nat) (op : FlashOp) (ops : List FlashOp) :
    erasesOfBlock bk (op :: ops) = opEraseCount bk op + erasesOfBlock bk ops := by
  simp [erasesOfBlock]

/-- Splitting `erasesOfBlock` over append. -/
theorem erasesOfBlock_append (bk : Nat) (l1 l2 : List FlashOp) :
    erasesOfBlock bk (l1 ++ l2) = erasesOfBlock bk l1 + erasesOfBlock bk l2 := by
  simp [erasesOfBlock]

/-- The intermediate-block loop erases each of its `m` blocks once,
none of them the scratch block. -/
theorem mid_persistentErases (B scratch : Nat) :
    ∀ m bk (buff : List Nat), (∀ k, k < m → bk + k ≠ scratch) →
      persistentErases scratch (dfs_mid_ops B bk buff m) = m := by
  intro m
  induction m with
  | zero => intro bk buff _; rfl
  | succ m ih =>
    intro bk buff h
    have hb : bk ≠ scratch := by have := h 0 (by omega); omega
    simp only [dfs_mid_ops]
    rw [persistentErases_cons, persistentErases_cons,
      ih (bk + 1) (buff.drop B) (fun k hk => by have := h (k + 1) (by omega); omega)]
    simp only [opPersistentErases]
    rw [if_neg hb]
    omega

/-- The intermediate-block loop touches exactly the blocks `[bk, bk + m)`,
each once. -/
theorem mid_erasesOfBlock (B b : Nat) :
    ∀ m bk (buff : List Nat), erasesOfBlock b (dfs_mid_ops B bk buff m) =
      if bk ≤ b ∧ b < bk + m then 1 else 0 := by
  intro m
  induction m with
  | zero =>
    intro bk buff
    rw [if_neg (by omega)]
    rfl
  | succ m ih =>
    intro bk buff
    simp only [dfs_mid_ops]
    rw [erasesOfBlock_cons, erasesOfBlock_cons, ih (bk + 1) (buff.drop B)]
    simp only [opEraseCount]
    split_ifs <;> omega


/-- C1: after `dfs_write_buffered(pos, buff, size, scratch)` with
`size > 0`, a read of `[pos, pos + size)` returns exactly the bytes of
`buff`, and every byte inside the erase blocks touched by the write
(blocks `pos / B` through `(pos + size - 1) / B`) but outside the written
range keeps its pre-write value. Operating conditions: the blocks the
engine may touch are distinct from the scratch block, and `buff` supplies
`size` bytes. -/
theorem C1_write_read_frame (B : Nat) (f : Flash) (pos size scratch : Nat)
    (buff : List Nat) (hB : 0 < B) (hsz : 0 < size) (hlen : size ≤ buff.length)
    (hscr : ∀ bk, pos / B ≤ bk → bk ≤ (pos + size) / B → bk ≠ scratch) :
    (∀ i, i < size →
      dfs_write_buffered B f pos buff size scratch (pos + i) = buff.getD i 255) ∧
    (∀ a, a < ((pos + size - 1) / B + 1) * B → pos / B * B ≤ a →
      (a < pos ∨ pos + size ≤ a) →
      dfs_write_buffered B f pos buff size scratch a = f a) := by
  constructor
  · intro i hi
    have hd1 : pos / B ≤ (pos + i) / B := Nat.div_le_div_right (by omega)
    have hd2 : (pos + i) / B ≤ (pos + size) / B := Nat.div_le_div_right (by omega)
    have ha : (pos + i) / B ≠ scratch := hscr _ hd1 hd2
    have h := dfs_write_buffered_eval B f pos size scratch buff hB hlen hscr
      (pos + i) ha
    rw [if_pos (by omega)] at h
    rw [h]
    exact getD_congr _ _ _ _ (by omega)
  · intro a h1 h2 h3
    have hd1 : pos / B ≤ a / B := (Nat.le_div_iff_mul_le hB).mpr
      (by calc pos / B * B ≤ a := h2)
    have hd2 : a / B ≤ (pos + size - 1) / B := by
      have := (Nat.div_lt_iff_lt_mul hB).mpr
        (by calc a < ((pos + size - 1) / B + 1) * B := h1)
      omega
    have hd3 : (pos + size - 1) / B ≤ (pos + size) / B := Nat.div_le_div_right (by omega)
    have ha : a / B ≠ scratch := hscr _ hd1 (by omega)
    have h := dfs_write_buffered_eval B f pos size scratch buff hB hlen hscr a ha
    rwa [if_neg (by omega)] at h

/-- Witness for C1: `B = 4`, write 8 bytes at offset 2 (spanning blocks 0,
1 and 2) with scratch block 5 over the flash `fun a => 100 + a`. -/
theorem C1_write_read_frame_witness :
    (0 : Nat) < 4 ∧ (0 : Nat) < 8 ∧
    (8 : Nat) ≤ [1, 2, 3, 4, 5, 6, 7, 8].length ∧
    (∀ bk : Nat, 2 / 4 ≤ bk → bk ≤ (2 + 8) / 4 → bk ≠ 5) ∧
    ((∀ i, i < 8 →
        dfs_write_buffered 4 (fun a => 100 + a) 2 [1, 2, 3, 4, 5, 6, 7, 8] 8 5
          (2 + i) = [1, 2, 3, 4, 5, 6, 7, 8].getD i 255) ∧
     (∀ a, a < ((2 + 8 - 1) / 4 + 1) * 4 → 2 / 4 * 4 ≤ a →
        (a < 2 ∨ 2 + 8 ≤ a) →
        dfs_write_buffered 4 (fun a => 100 + a) 2 [1, 2, 3, 4, 5, 6, 7, 8] 8 5 a =
          100 + a)) :=
  ⟨by decide, by decide, by decide, by intro bk h1 h2; omega,
   C1_write_read_frame 4 (fun a => 100 + a) 2 8 5 [1, 2, 3, 4, 5, 6, 7, 8]
     (by decide) (by decide) (by decide) (by intro bk h1 h2; omega)⟩

/-- C4 counterexample: with `B = 4`, `pos = 1`, `size = 0`, scratch block 1
and flash contents `fun a => 100 + a`, the call is not a no-op: byte 4 (in
the scratch block) changes from 104 to 100 (a copy of byte 0), and one
persistent block (block 0 = `pos / B`) is erased (inside the publishing
`flash_copy_block`). -/
theorem C4_counterexample :
    dfs_write_buffered 4 (fun a => 100 + a) 1 [] 0 1 4 = 100 ∧
    (100 : Nat) + 4 = 104 ∧
    persistentErases 1 (dfs_write_buffered_ops 4 1 [] 0 1) = 1 := by decide

/-- C4 amended: a `size = 0` call leaves every byte outside the scratch
block unchanged in value, but it is not a no-op: the target block
`pos / B` is erased and rewritten with its own contents (exactly one erase
of a persistent block), and the scratch block is overwritten with a copy
of it. -/
theorem C4_zero_size (B : Nat) (f : Flash) (pos scratch : Nat) (buff : List Nat)
    (hB : 0 < B) (hscr : pos / B ≠ scratch) :
    (∀ a, a / B ≠ scratch → dfs_write_buffered B f pos buff 0 scratch a = f a) ∧
    persistentErases scratch (dfs_write_buffered_ops B pos buff 0 scratch) = 1 := by
  constructor
  · intro a ha
    have hscr2 : ∀ bk, pos / B ≤ bk → bk ≤ (pos + 0) / B → bk ≠ scratch := by
      intro bk hb1 hb2
      rw [Nat.add_zero] at hb2
      omega
    have h := dfs_write_buffered_eval B f pos 0 scratch buff hB (by omega) hscr2 a ha
    rwa [if_neg (by omega)] at h
  · rw [dfs_write_buffered_ops_single_eq B pos 0 scratch buff (by rw [Nat.add_zero])]
    simp [persistentErases, opPersistentErases, hscr]

/-- Witness for C4: `B = 4`, `pos = 1`, scratch block 2, identity flash. -/
theorem C4_zero_size_witness :
    (0 : Nat) < 4 ∧ (1 : Nat) / 4 ≠ 2 ∧
    ((∀ a, a / 4 ≠ 2 → dfs_write_buffered 4 (fun x => x) 1 [] 0 2 a = a) ∧
     persistentErases 2 (dfs_write_buffered_ops 4 1 [] 0 2) = 1) :=
  ⟨by decide, by decide, C4_zero_size 4 (fun x => x) 1 2 [] (by decide) (by decide)⟩

/-- C7 counterexample: with `B = 4` the write of 4 bytes at `pos = 0`
intersects exactly one erase block, yet the engine erases two persistent
blocks: `last_bk = (pos + size) / B` overshoots when the write ends
block-aligned, so block 1 is also erased and rewritten. -/
theorem C7_counterexample :
    touchedBlocks 4 0 4 = 1 ∧
    persistentErases 2 (dfs_write_buffered_ops 4 0 [1, 2, 3, 4] 4 2) = 2 := by decide

/-- C7 amended: a `dfs_write_buffered` call issues exactly
`(pos + size) / B - pos / B + 1` erases of persistent blocks, independent
of `size`; this equals the number `k` of blocks the byte range intersects
except when `pos + size` is block-aligned, where it is `k + 1`. Each block
strictly between `start_bk` and `last_bk` is erased exactly once. -/
theorem C7_erase_count (B pos size scratch : Nat) (buff : List Nat) (hB : 0 < B)
    (hscr : ∀ bk, pos / B ≤ bk → bk ≤ (pos + size) / B → bk ≠ scratch) :
    persistentErases scratch (dfs_write_buffered_ops B pos buff size scratch) =
      (pos + size) / B - pos / B + 1 ∧
    (∀ bk, pos / B < bk → bk < (pos + size) / B →
      erasesOfBlock bk (dfs_write_buffered_ops B pos buff size scratch) = 1) ∧
    (0 < size → (pos + size) % B ≠ 0 →
      (pos + size) / B - pos / B + 1 = touchedBlocks B pos size) := by
  have hq_le : pos / B ≤ (pos + size) / B := Nat.div_le_div_right (by omega)
  have hsq : pos / B ≠ scratch := hscr _ (le_refl _) (by omega)
  have hsL : (pos + size) / B ≠ scratch := hscr _ (by omega) (le_refl _)
  refine ⟨?_, ?_, ?_⟩
  · by_cases hcase : pos / B = (pos + size) / B
    · rw [dfs_write_buffered_ops_single_eq B pos size scratch buff hcase]
      simp [persistentErases, opPersistentErases, hsq]
      omega
    · rw [dfs_write_buffered_ops_multi_eq B pos size scratch buff hcase]
      rw [persistentErases_append, persistentErases_append]
      rw [mid_persistentErases B scratch _ (pos / B + 1) _
        (fun k hk => hscr _ (by omega) (by omega))]
      simp [persistentErases, opPersistentErases, hsq, hsL]
      omega
  · intro bk h1 h2
    have hcase : ¬ pos / B = (pos + size) / B := by omega
    have hbs : ¬ scratch = bk := fun h => hscr bk (by omega) (by omega) (by omega)
    have hqb : ¬ pos / B = bk := by omega
    have hLb : ¬ (pos + size) / B = bk := by omega
    rw [dfs_write_buffered_ops_multi_eq B pos size scratch buff hcase]
    rw [erasesOfBlock_append, erasesOfBlock_append]
    rw [mid_erasesOfBlock B bk _ (pos / B + 1) _]
    rw [if_pos (by omega)]
    simp [erasesOfBlock, opEraseCount, hbs, hqb, hLb]
  · intro hsz hmod
    have hd2 := Nat.div_add_mod (pos + size) B
    have hms : (pos + size) % B < B := Nat.mod_lt _ hB
    obtain ⟨r, hr⟩ : ∃ r, (pos + size) % B = r := ⟨_, rfl⟩
    rw [hr] at hd2 hms hmod
    unfold touchedBlocks
    have h1 : pos + size - 1 = B * ((pos + size) / B) + (r - 1) := by omega
    have h2 : (pos + size - 1) / B = (pos + size) / B := by
      rw [h1, Nat.mul_add_div hB, Nat.div_eq_of_lt (show r - 1 < B from by omega),
        Nat.add_zero]
    rw [h2]

/-- Witness for C7: `B = 4`, 8 bytes at offset 2, scratch block 5: 3
touched blocks, 3 persistent erases, block 1 erased once. -/
theorem C7_erase_count_witness :
    (0 : Nat) < 4 ∧
    (∀ bk : Nat, 2 / 4 ≤ bk → bk ≤ (2 + 8) / 4 → bk ≠ 5) ∧
    (persistentErases 5 (dfs_write_buffered_ops 4 2 [1, 2, 3, 4, 5, 6, 7, 8] 8 5) =
      (2 + 8) / 4 - 2 / 4 + 1 ∧
    (∀ bk, 2 / 4 < bk → bk < (2 + 8) / 4 →
      erasesOfBlock bk (dfs_write_buffered_ops 4 2 [1, 2, 3, 4, 5, 6, 7, 8] 8 5) = 1) ∧
    (0 < 8 → (2 + 8) % 4 ≠ 0 →
      (2 + 8) / 4 - 2 / 4 + 1 = touchedBlocks 4 2 8)) :=
  ⟨by decide, by intro bk h1 h2; omega,
   C7_erase_count 4 2 8 5 [1, 2, 3, 4, 5, 6, 7, 8] (by decide)
     (by intro bk h1 h2; omega)⟩


/-- A hit of the iterate scan lies at or after the cursor. -/
theorem dfs_iterate_scan_some_ge (s : DfsState) :
    ∀ fuel i j d, dfs_iterate_scan s i fuel = some (j, d) → i ≤ j := by
  intro fuel
  induction fuel with
  | zero => intro i j d h; exact absurd h (by simp [dfs_iterate_scan])
  | succ fuel ih =>
    intro i j d h
    simp only [dfs_iterate_scan] at h
    by_cases he : empty4 (readSlot s i)
    · rw [if_pos he] at h
      have := ih (i + 1) j d h
      omega
    · rw [if_neg he] at h
      obtain h2 := Option.some.inj h
      have : i = j := congrArg Prod.fst h2
      omega

/-- A fresh `dfs_iterate` call (cursor 0) scans from slot 1, skipping the
root. -/
theorem dfs_iterate_fresh (s : DfsState) (stop : Nat) :
    dfs_iterate s stop 0 = dfs_iterate_scan s 1 (stop - 1) := rfl

/-- The enumeration `dfs_enum` is exactly what repeated `dfs_iterate` calls
produce: each call yields the next hit of the scan, and the enumeration
resumes from the cursor one past it. -/
theorem dfs_enum_eq_iterate (s : DfsState) :
    ∀ fuel i, dfs_enum s i fuel =
      match dfs_iterate_scan s i fuel with
      | none => []
      | some (j, d) => (j, d) :: dfs_enum s (j + 1) (fuel - (j + 1 - i)) := by
  intro fuel
  induction fuel with
  | zero => intro i; rfl
  | succ fuel ih =>
    intro i
    simp only [dfs_enum, dfs_iterate_scan]
    by_cases he : empty4 (readSlot s i)
    · rw [if_pos he, if_pos he, ih (i + 1)]
      cases hscan : dfs_iterate_scan s (i + 1) fuel with
      | none => rfl
      | some e =>
        obtain ⟨j, d⟩ := e
        have hge := dfs_iterate_scan_some_ge s fuel (i + 1) j d hscan
        simp only []
        have harith : fuel - (j + 1 - (i + 1)) = fuel + 1 - (j + 1 - i) := by omega
        rw [harith]
    · rw [if_neg he, if_neg he]
      simp only []
      have harith : fuel + 1 - (i + 1 - i) = fuel := by omega
      rw [harith]

end DFS
